import Mathlib

/-!
Verification of the MutationMotif positional-effect analysis engine.

The definitions below are a shallow embedding of `mutation_motif/entropy.py`
and `mutation_motif/mutation_analysis.py`:

* a base-observation matrix of shape `N × P` is a function
  `Fin N → Fin P → ℕ` (entries are recoded bases, valid when `< 4`);
* numpy float arithmetic on frequencies is modelled over `ℚ`, and `log2`
  over `ℝ` via `Real.logb 2`;
* `numpy.zeros(..., object)` grids holding position combinations are
  modelled as functions from coordinates to `Option` motifs, with
  assignment as `Function.update`;
* Python exceptions (`reshape` failure, `ValueError`) are modelled with
  `Option`/`Except` results.
-/

namespace MutationMotif

/-! ### entropy.py -/

/-- Embeds `(data == i).sum(axis=0)`: the number of rows of `data` whose entry in
column `j` equals `i`. -/
def base_count (N P : ℕ) (data : Fin N → Fin P → ℕ) (i : ℕ) (j : Fin P) : ℕ :=
  (Finset.univ.filter (fun r : Fin N => data r j = i)).card

/-- Embeds `as_freq_matrix(data, pseudocount)` from `entropy.py`: per column, the
count of each of the four symbols plus the pseudocount, divided by
`total + pseudocount * 4` where `total = data.shape[0]`. -/
def as_freq_matrix (N P : ℕ) (data : Fin N → Fin P → ℕ) (pseudocount : ℚ) :
    Fin 4 → Fin P → ℚ :=
  fun i j =>
    ((base_count N P data i.val j : ℚ) + pseudocount) / ((N : ℚ) + pseudocount * 4)

/-- Embeds `get_ret(ref, ctl, pseudocount)` from `entropy.py`:
`p * log2(p / q)` elementwise with `p`, `q` the two frequency matrices. -/
noncomputable def get_ret (N M P : ℕ) (ref : Fin N → Fin P → ℕ)
    (ctl : Fin M → Fin P → ℕ) (pseudocount : ℚ) : Fin 4 → Fin P → ℝ :=
  fun i j =>
    ((as_freq_matrix N P ref pseudocount i j : ℚ) : ℝ) *
      Real.logb 2 (((as_freq_matrix N P ref pseudocount i j : ℚ) : ℝ) /
        ((as_freq_matrix M P ctl pseudocount i j : ℚ) : ℝ))

/-- The four symbol counts of a column of a valid matrix partition its rows. -/
lemma sum_base_count (N P : ℕ) (data : Fin N → Fin P → ℕ)
    (h : ∀ r c, data r c < 4) (j : Fin P) :
    ∑ i : Fin 4, base_count N P data i.val j = N := by
  have key : (Finset.univ : Finset (Fin N)).card =
      ∑ b ∈ Finset.range 4, (Finset.univ.filter (fun r : Fin N => data r j = b)).card :=
    Finset.card_eq_sum_card_fiberwise (fun r _ => Finset.mem_range.mpr (h r j))
  rw [Fin.sum_univ_eq_sum_range (fun i => base_count N P data i j) 4]
  unfold base_count
  rw [← key, Finset.card_univ, Fintype.card_fin]

lemma as_freq_col_sum (N P : ℕ) (data : Fin N → Fin P → ℕ) (pc : ℚ)
    (h : ∀ r c, data r c < 4) (hD : (0 : ℚ) < (N : ℚ) + pc * 4) (j : Fin P) :
    ∑ i : Fin 4, as_freq_matrix N P data pc i j = 1 := by
  unfold as_freq_matrix
  rw [← Finset.sum_div]
  have hs : ∑ i : Fin 4, ((base_count N P data i.val j : ℚ) + pc) =
      (N : ℚ) + pc * 4 := by
    rw [Finset.sum_add_distrib, Finset.sum_const, Finset.card_univ, Fintype.card_fin,
      ← Nat.cast_sum, sum_base_count N P data h j]
    rw [nsmul_eq_mul]
    ring
  rw [hs, div_self (ne_of_gt hD)]

lemma as_freq_denom_pos (N : ℕ) (pc : ℚ) (hpc : 0 < pc) :
    (0 : ℚ) < (N : ℚ) + pc * 4 := by
  have hN : (0 : ℚ) ≤ (N : ℚ) := Nat.cast_nonneg N
  linarith

lemma as_freq_pos (N P : ℕ) (data : Fin N → Fin P → ℕ) (pc : ℚ)
    (hpc : 0 < pc) (i : Fin 4) (j : Fin P) :
    0 < as_freq_matrix N P data pc i j := by
  unfold as_freq_matrix
  apply div_pos
  · have : (0 : ℚ) ≤ (base_count N P data i.val j : ℚ) := Nat.cast_nonneg _
    linarith
  · exact as_freq_denom_pos N pc hpc

/-- Claim C1 (amended): for a base-observation matrix with all entries in
`[0,4)` and a pseudocount `≥ 0`, provided the normalizer `N + 4·pseudocount`
is positive, every entry of `as_freq_matrix` equals
`(count + pseudocount) / (N + 4·pseudocount)`, every column sums to exactly
1, and with a strictly positive pseudocount every entry is strictly
positive. -/
theorem c1_as_freq_matrix_spec (N P : ℕ) (data : Fin N → Fin P → ℕ) (pc : ℚ)
    (hdata : ∀ r c, data r c < 4) (hpc : 0 ≤ pc)
    (hD : (0 : ℚ) < (N : ℚ) + pc * 4) :
    (∀ i j, as_freq_matrix N P data pc i j =
        ((base_count N P data i.val j : ℚ) + pc) / ((N : ℚ) + pc * 4)) ∧
    (∀ j, ∑ i : Fin 4, as_freq_matrix N P data pc i j = 1) ∧
    (0 < pc → ∀ i j, 0 < as_freq_matrix N P data pc i j) := by
  refine ⟨fun i j => rfl, fun j => as_freq_col_sum N P data pc hdata hD j,
    fun hpos i j => as_freq_pos N P data pc hpos i j⟩

/-- Witness for C1 at `N = 1`, `P = 1`, the all-zero observation matrix and
pseudocount `0`. -/
theorem c1_witness :
    (∀ i j, as_freq_matrix 1 1 (fun _ _ => 0) 0 i j =
        ((base_count 1 1 (fun _ _ => 0) i.val j : ℚ) + 0) / ((1 : ℚ) + 0 * 4)) ∧
    (∀ j, ∑ i : Fin 4, as_freq_matrix 1 1 (fun _ _ => 0) 0 i j = 1) ∧
    ((0 : ℚ) < 0 → ∀ i j, 0 < as_freq_matrix 1 1 (fun _ _ => 0) 0 i j) := by
  have h := c1_as_freq_matrix_spec 1 1 (fun _ _ => 0) 0
    (fun _ _ => by norm_num) (le_refl 0) (by norm_num)
  simpa using h

/-- Counterexample to C1 as stated: with `N = 0` rows, `P = 1` and
pseudocount `0` every entry of the (empty) matrix is in `[0,4)` and the
pseudocount is `≥ 0`, yet the column does not sum to 1 — the code divides
by `N + 4·pseudocount = 0` (numpy produces `nan`; the rational embedding
makes the entries `0`). -/
theorem c1_counterexample :
    (∀ (r : Fin 0) (c : Fin 1), (fun (_ : Fin 0) (_ : Fin 1) => 0) r c < 4) ∧
    (0 : ℚ) ≤ 0 ∧
    ¬ (∑ i : Fin 4, as_freq_matrix 0 1 (fun _ _ => 0) 0 i 0 = 1) := by
  refine ⟨fun r _ => r.elim0, le_refl 0, ?_⟩
  have h : ∀ i : Fin 4, as_freq_matrix 0 1 (fun _ _ => 0) 0 i 0 = 0 := by
    intro i
    unfold as_freq_matrix
    norm_num
  rw [Fin.sum_univ_four, h 0, h 1, h 2, h 3]
  norm_num

/-- Claim C6: identical reference and control matrices give all-zero
relative-entropy terms (proved for the default pseudocount 1, with no
side conditions needed). -/
theorem c6_get_ret_self_zero (N P : ℕ) (data : Fin N → Fin P → ℕ)
    (i : Fin 4) (j : Fin P) : get_ret N N P data data 1 i j = 0 := by
  unfold get_ret
  rcases eq_or_ne ((as_freq_matrix N P data 1 i j : ℚ) : ℝ) 0 with h | h
  · rw [h, zero_mul]
  · rw [div_self h, Real.logb_one, mul_zero]

/-- Gibbs' inequality for four-state distributions: the Kullback–Leibler
divergence in bits between two strictly positive distributions of equal
total mass is non-negative. -/
lemma gibbs_inequality (p q : Fin 4 → ℝ) (hp : ∀ i, 0 < p i) (hq : ∀ i, 0 < q i)
    (hsum : ∑ i, p i = ∑ i, q i) :
    0 ≤ ∑ i, p i * Real.logb 2 (p i / q i) := by
  have key : ∑ i, p i * Real.log (q i / p i) ≤ 0 := by
    have h1 : ∑ i, p i * Real.log (q i / p i) ≤ ∑ i, p i * (q i / p i - 1) :=
      Finset.sum_le_sum fun i _ =>
        mul_le_mul_of_nonneg_left
          (Real.log_le_sub_one_of_pos (div_pos (hq i) (hp i))) (hp i).le
    have h2 : ∑ i, p i * (q i / p i - 1) = ∑ i, (q i - p i) :=
      Finset.sum_congr rfl fun i _ => by
        have hpi : p i ≠ 0 := (hp i).ne'
        field_simp
    have h3 : ∑ i, (q i - p i) = 0 := by
      rw [Finset.sum_sub_distrib, hsum, sub_self]
    linarith
  have hlog2 : 0 < Real.log 2 := Real.log_pos (by norm_num)
  have hterm : ∀ i : Fin 4, p i * Real.logb 2 (p i / q i) =
      -(p i * Real.log (q i / p i)) / Real.log 2 := by
    intro i
    rw [← Real.log_div_log]
    have : Real.log (p i / q i) = -Real.log (q i / p i) := by
      rw [← inv_div (q i) (p i), Real.log_inv]
    rw [this]
    ring
  calc (0 : ℝ) ≤ -(∑ i, p i * Real.log (q i / p i)) / Real.log 2 :=
        div_nonneg (neg_nonneg.mpr key) hlog2.le
    _ = ∑ i, -(p i * Real.log (q i / p i)) / Real.log 2 := by
        rw [← Finset.sum_neg_distrib, ← Finset.sum_div]
    _ = ∑ i, p i * Real.logb 2 (p i / q i) :=
        Finset.sum_congr rfl fun i _ => (hterm i).symm

/-- Claim C5: for any two valid base-observation matrices, each column of
`get_ret` with the default pseudocount 1, summed over its four symbol rows,
is non-negative (it is a KL divergence between two strictly positive
distributions). -/
theorem c5_get_ret_col_sum_nonneg (N M P : ℕ) (ref : Fin N → Fin P → ℕ)
    (ctl : Fin M → Fin P → ℕ) (href : ∀ r c, ref r c < 4)
    (hctl : ∀ r c, ctl r c < 4) (j : Fin P) :
    0 ≤ ∑ i : Fin 4, get_ret N M P ref ctl 1 i j := by
  have hone : (0 : ℚ) < 1 := one_pos
  have hp : ∀ i : Fin 4, (0 : ℝ) < ((as_freq_matrix N P ref 1 i j : ℚ) : ℝ) :=
    fun i => by exact_mod_cast as_freq_pos N P ref 1 hone i j
  have hq : ∀ i : Fin 4, (0 : ℝ) < ((as_freq_matrix M P ctl 1 i j : ℚ) : ℝ) :=
    fun i => by exact_mod_cast as_freq_pos M P ctl 1 hone i j
  have hsump : ∑ i : Fin 4, ((as_freq_matrix N P ref 1 i j : ℚ) : ℝ) = 1 := by
    have := as_freq_col_sum N P ref 1 href (as_freq_denom_pos N 1 hone) j
    exact_mod_cast congrArg (fun x : ℚ => (x : ℝ)) this
  have hsumq : ∑ i : Fin 4, ((as_freq_matrix M P ctl 1 i j : ℚ) : ℝ) = 1 := by
    have := as_freq_col_sum M P ctl 1 hctl (as_freq_denom_pos M 1 hone) j
    exact_mod_cast congrArg (fun x : ℚ => (x : ℝ)) this
  have := gibbs_inequality (fun i => ((as_freq_matrix N P ref 1 i j : ℚ) : ℝ))
    (fun i => ((as_freq_matrix M P ctl 1 i j : ℚ) : ℝ)) hp hq
    (by rw [hsump, hsumq])
  simpa [get_ret] using this

/-- Witness for C5 at two concrete single-row, single-column matrices. -/
theorem c5_witness :
    0 ≤ ∑ i : Fin 4, get_ret 1 1 1 (fun _ _ => 0) (fun _ _ => 1) 1 i 0 :=
  c5_get_ret_col_sum_nonneg 1 1 1 (fun _ _ => 0) (fun _ _ => 1)
    (fun _ _ => by norm_num) (fun _ _ => by norm_num) 0

/-! ### mutation_analysis.py : index adjustment (height assembly) -/

/-- Embeds `num_pos = len(positions) + 1`: the augmented index space, with one
extra slot for the focal position. -/
def num_pos {α : Type} (positions : List α) : ℕ := positions.length + 1

/-- Embeds `mid = num_pos // 2`: the focal slot. -/
def mid_pos {α : Type} (positions : List α) : ℕ := num_pos positions / 2

/-- One step of the index-adjustment loop in the figure-assembly functions:
`if index >= mid: index += 1`. -/
def adjust_index (mid index : ℕ) : ℕ := if index ≥ mid then index + 1 else index

/-- The index-adjustment loop (`get_single_position_fig`,
`get_two_position_fig`, `get_three_position_fig`, `get_four_position_fig`)
applied to the member-position indices of a combination. -/
def adjust_indices {α : Type} (positions : List α) (indices : List ℕ) : List ℕ :=
  indices.map (adjust_index (mid_pos positions))

/-- Claim C3: the index-adjustment step increments every index `≥ mid` by
exactly one and leaves indices `< mid` unchanged, so no adjusted index ever
equals `mid`; for 4 positions (augmented size 5, `mid = 2`), raw indices
`[0,3]` map to `[0,4]` and `[1,2]` map to `[1,3]`. -/
theorem c3_index_adjustment {α : Type} (positions : List α) :
    (∀ x, mid_pos positions ≤ x → adjust_index (mid_pos positions) x = x + 1) ∧
    (∀ x, x < mid_pos positions → adjust_index (mid_pos positions) x = x) ∧
    (∀ indices, ∀ y ∈ adjust_indices positions indices, y ≠ mid_pos positions) ∧
    (positions.length = 4 →
      mid_pos positions = 2 ∧
      adjust_indices positions [0, 3] = [0, 4] ∧
      adjust_indices positions [1, 2] = [1, 3]) := by
  refine ⟨fun x hx => if_pos hx, fun x hx => if_neg (by omega), ?_, ?_⟩
  · intro indices y hy
    simp only [adjust_indices, List.mem_map] at hy
    obtain ⟨x, -, rfl⟩ := hy
    unfold adjust_index
    split <;> omega
  · intro h4
    have hmid : mid_pos positions = 2 := by
      unfold mid_pos num_pos
      rw [h4]
    refine ⟨hmid, ?_, ?_⟩ <;>
      simp [adjust_indices, adjust_index, hmid]

/-- Witness for C3 at the concrete position list `[10, 20, 30, 40]`. -/
theorem c3_witness :
    (∀ x, mid_pos [10, 20, 30, 40] ≤ x →
      adjust_index (mid_pos [10, 20, 30, 40]) x = x + 1) ∧
    (∀ x, x < mid_pos [10, 20, 30, 40] →
      adjust_index (mid_pos [10, 20, 30, 40]) x = x) ∧
    (∀ indices, ∀ y ∈ adjust_indices [10, 20, 30, 40] indices,
      y ≠ mid_pos [10, 20, 30, 40]) ∧
    (([10, 20, 30, 40] : List ℕ).length = 4 →
      mid_pos [10, 20, 30, 40] = 2 ∧
      adjust_indices [10, 20, 30, 40] [0, 3] = [0, 4] ∧
      adjust_indices [10, 20, 30, 40] [1, 2] = [1, 3]) :=
  c3_index_adjustment [10, 20, 30, 40]

/-! ### mutation_analysis.py : get_position_effects -/

/-- The tuple returned by the external log-linear fit
`log_lin.position_effect` (the external per-base statistics table is not
modelled). -/
structure FitResult where
  rel_entropy : ℚ
  deviance : ℚ
  df : ℕ
  formula : String
deriving DecidableEq

/-- The per-combination record stored by `get_position_effects`. -/
structure EffectResult where
  rel_entropy : ℚ
  deviance : ℚ
  df : ℕ
  formula : String
  prob : ℚ
deriving DecidableEq

/-- The loop of `get_position_effects`: for each position set, run the
external fit (injected capability `fit`), guard negative deviance, and
otherwise compute the chi-square upper-tail p-value (injected capability
`chisqprob`). -/
def get_position_effects (fit : List String → FitResult)
    (chisqprob : ℚ → ℕ → ℚ) (position_sets : List (List String)) :
    List (List String × EffectResult) :=
  position_sets.map fun position_set =>
    let r := fit position_set
    let p := if r.deviance < 0 then 1 else chisqprob r.deviance r.df
    (position_set, ⟨r.rel_entropy, r.deviance, r.df, r.formula, p⟩)

/-- Claim C7: for every combination processed by `get_position_effects`, a
negative deviance from the external fit forces the stored p-value to
exactly 1 regardless of `df`, and a non-negative deviance stores
`chisqprob(deviance, df)`. -/
theorem c7_deviance_guard (fit : List String → FitResult)
    (chisqprob : ℚ → ℕ → ℚ) (position_sets : List (List String))
    (pr : List String × EffectResult)
    (hmem : pr ∈ get_position_effects fit chisqprob position_sets) :
    ((fit pr.1).deviance < 0 → pr.2.prob = 1) ∧
    (0 ≤ (fit pr.1).deviance →
      pr.2.prob = chisqprob (fit pr.1).deviance (fit pr.1).df) := by
  simp only [get_position_effects, List.mem_map] at hmem
  obtain ⟨ps, -, rfl⟩ := hmem
  constructor
  · intro h
    simp only [if_pos h]
  · intro h
    simp only [if_neg (not_lt.mpr h)]

/-- Witness for C7: a fit returning deviance `-0.5` with `df = 7` yields a
stored p-value of exactly 1, even though the injected `chisqprob` would
return `1/3`. -/
theorem c7_witness :
    (-(1 / 2) : ℚ) < 0 ∧
    ((["pos1"], (⟨0, -(1 / 2), 7, "f", 1⟩ : EffectResult)) :
        List String × EffectResult).2.prob = 1 := by
  have h := c7_deviance_guard (fun _ => ⟨0, -(1 / 2), 7, "f"⟩)
    (fun _ _ => 1 / 3) [["pos1"]]
    ((["pos1"], (⟨0, -(1 / 2), 7, "f", 1⟩ : EffectResult)))
    (by norm_num [get_position_effects])
  exact ⟨by norm_num, h.1 (by norm_num)⟩

/-! ### mutation_analysis.py : get_selected_indices -/

/-- Python truthiness of an optional string: `None` and `''` are falsy. -/
def pytruthy : Option String → Bool
  | none => false
  | some s => !(s == "")

/-- Embeds `dict(strand='+').get(group_label, '1')`. -/
def default_group_val (group_label : String) : String :=
  if group_label = "strand" then "+" else "1"

/-- Embeds `get_selected_indices(stats, group_label, group_ref)`: the displayed-row
mask over a statistics table whose rows are read by column name. -/
def get_selected_indices (stats : List (String → String))
    (group_label group_ref : Option String) : List Bool :=
  if pytruthy group_label = true ∧ group_ref = none then
    stats.map fun row =>
      row "mut" == "M" &&
        row (group_label.getD "") == default_group_val (group_label.getD "")
  else if pytruthy group_label = true ∧ pytruthy group_ref = true then
    stats.map fun row =>
      row "mut" == "M" && row (group_label.getD "") == group_ref.getD ""
  else
    stats.map fun row => row "mut" == "M"

/-- Claim C8: with no group label the mask is `mut == 'M'`; with a group
label and an explicit reference it is `mut == 'M' AND group == ref`; with a
group label and no reference it is `mut == 'M' AND group == default`, the
default being `'+'` for `strand` and `'1'` otherwise. -/
theorem c8_get_selected_indices (stats : List (String → String))
    (group_label group_ref : Option String) :
    (group_label = none →
      get_selected_indices stats group_label group_ref =
        stats.map fun row => row "mut" == "M") ∧
    (∀ s, group_label = some s → s ≠ "" → group_ref = none →
      get_selected_indices stats group_label group_ref =
        stats.map fun row =>
          row "mut" == "M" && row s == (if s = "strand" then "+" else "1")) ∧
    (∀ s r, group_label = some s → s ≠ "" → group_ref = some r → r ≠ "" →
      get_selected_indices stats group_label group_ref =
        stats.map fun row => row "mut" == "M" && row s == r) := by
  refine ⟨?_, ?_, ?_⟩
  · rintro rfl
    simp [get_selected_indices, pytruthy]
  · rintro s rfl hs rfl
    have hts : pytruthy (some s) = true := by
      simp [pytruthy, hs]
    simp [get_selected_indices, hts, default_group_val]
  · rintro s r rfl hs rfl hr
    have hts : pytruthy (some s) = true := by
      simp [pytruthy, hs]
    have htr : pytruthy (some r) = true := by
      simp [pytruthy, hr]
    simp [get_selected_indices, hts, htr]

/-- Witness for C8: the three-row table of §4.6 of the spec (`mut` values
`M, M, W`; `strand` values `+, -, +`): no group filter selects the first
two rows; `strand` filtering with no explicit reference selects only the
first. -/
theorem c8_witness :
    get_selected_indices
        [fun c => if c = "mut" then "M" else if c = "strand" then "+" else "",
         fun c => if c = "mut" then "M" else if c = "strand" then "-" else "",
         fun c => if c = "mut" then "W" else if c = "strand" then "+" else ""]
        none none = [true, true, false] ∧
    get_selected_indices
        [fun c => if c = "mut" then "M" else if c = "strand" then "+" else "",
         fun c => if c = "mut" then "M" else if c = "strand" then "-" else "",
         fun c => if c = "mut" then "W" else if c = "strand" then "+" else ""]
        (some "strand") none = [true, false, false] := by
  constructor
  · rw [(c8_get_selected_indices _ none none).1 rfl]
    decide
  · rw [(c8_get_selected_indices _ (some "strand") none).2.1 "strand" rfl
      (by decide) rfl]
    decide

/-! ### mutation_analysis.py : the nbr position-count check -/

/-- Whether the first character list begins the second. -/
def starts_with_chars : List Char → List Char → Bool
  | [], _ => true
  | _ :: _, [] => false
  | p :: ps, c :: cs => p == c && starts_with_chars ps cs

/-- Python's `str.startswith`, modelled on the underlying character list. -/
def starts_with (s pre : String) : Bool := starts_with_chars pre.data s.data

/-- Embeds `positions = [c for c in counts_table.header if c.startswith('pos')]`. -/
def nbr_positions (header : List String) : List String :=
  header.filter fun c => starts_with c "pos"

/-- The check in the `nbr` command:
`if not first_order and len(positions) != 4: raise ValueError(...)`,
modelled with `Except` (the raise is the `error` case). -/
def nbr_position_check (header : List String) (first_order : Bool) :
    Except String (List String) :=
  if first_order = false ∧ (nbr_positions header).length ≠ 4 then
    Except.error "Requires four positions for analysis"
  else Except.ok (nbr_positions header)

/-- Claim C10: outside first-order-only mode the `nbr` command raises
`ValueError('Requires four positions for analysis')` exactly when the
number of `pos`-prefixed header columns differs from 4 (fewer or more);
in first-order-only mode the check never fires. -/
theorem c10_nbr_position_check (header : List String) (first_order : Bool) :
    (nbr_position_check header first_order =
        Except.error "Requires four positions for analysis" ↔
      first_order = false ∧ (nbr_positions header).length ≠ 4) ∧
    nbr_position_check header true = Except.ok (nbr_positions header) := by
  constructor
  · unfold nbr_position_check
    split
    · next h => simp [h]
    · next h => simp [h]
  · unfold nbr_position_check
    simp

/-- Witness for C10: a header with five `pos` columns (more than four) and
full-order mode raises; the same header in first-order-only mode does not. -/
theorem c10_witness :
    nbr_position_check ["count", "pos1", "pos2", "pos3", "pos4", "pos5", "mut"]
        false = Except.error "Requires four positions for analysis" ∧
    nbr_position_check ["count", "pos1", "pos2", "pos3", "pos4", "pos5", "mut"]
        true = Except.ok ["pos1", "pos2", "pos3", "pos4", "pos5"] := by
  constructor
  · exact (c10_nbr_position_check _ false).1.mpr ⟨rfl, by decide⟩
  · rw [(c10_nbr_position_check
      ["count", "pos1", "pos2", "pos3", "pos4", "pos5", "mut"] true).2]
    exact congrArg Except.ok (by decide)

/-! ### itertools.combinations and the grid-fill loop -/

section Combinations

variable {α : Type}

/-- Embeds `itertools.combinations(l, k)`: all size-`k` subsequences of `l` in
lexicographic order over the input index order, each keeping the input
relative order of its members. -/
def combinations : ℕ → List α → List (List α)
  | 0, _ => [[]]
  | _ + 1, [] => []
  | k + 1, x :: xs => ((combinations k xs).map (x :: ·)) ++ combinations (k + 1) xs

lemma combinations_perm_sublistsLen (k : ℕ) (l : List α) :
    (combinations k l).Perm (List.sublistsLen k l) := by
  induction l generalizing k with
  | nil =>
    cases k with
    | zero => simp [combinations]
    | succ k => simp [combinations]
  | cons x xs ih =>
    cases k with
    | zero => simp [combinations]
    | succ k =>
      rw [combinations, List.sublistsLen_succ_cons]
      exact (List.Perm.append ((ih k).map _) (ih (k + 1))).trans
        List.perm_append_comm

lemma mem_combinations {k : ℕ} {l m : List α} :
    m ∈ combinations k l ↔ m.Sublist l ∧ m.length = k := by
  rw [(combinations_perm_sublistsLen k l).mem_iff, List.mem_sublistsLen]

lemma mem_combinations_subset {k : ℕ} {l m : List α}
    (h : m ∈ combinations k l) : ∀ x ∈ m, x ∈ l :=
  fun _ hx => (mem_combinations.mp h).1.subset hx

lemma combinations_nodup {k : ℕ} {l : List α} (h : l.Nodup) :
    (combinations k l).Nodup :=
  (combinations_perm_sublistsLen k l).nodup_iff.mpr (List.nodup_sublistsLen k h)

lemma combinations_length (k : ℕ) (l : List α) :
    (combinations k l).length = l.length.choose k := by
  rw [(combinations_perm_sublistsLen k l).length_eq, List.length_sublistsLen]

end Combinations

section FillFold

variable {κ M : Type} [DecidableEq κ]

/-- The grid-fill loop shared by `get_resized_array_coordinates2` and
`get_resized_array_coordinates3`: starting from an all-empty
`numpy.zeros(..., object)` grid `g0`, each motif `m` is assigned to the
cell `f m`. -/
def fill_fold (f : M → κ) (ms : List M) (g0 : κ → Option M) : κ → Option M :=
  ms.foldl (fun g m => Function.update g (f m) (some m)) g0

lemma fill_fold_nil (f : M → κ) (g0 : κ → Option M) : fill_fold f [] g0 = g0 := rfl

lemma fill_fold_cons (f : M → κ) (m : M) (ms : List M) (g0 : κ → Option M) :
    fill_fold f (m :: ms) g0 =
      fill_fold f ms (Function.update g0 (f m) (some m)) := rfl

/-- A cell missed by every target keeps its initial value. -/
lemma fill_fold_not_target (f : M → κ) (c : κ) :
    ∀ (ms : List M) (g0 : κ → Option M), c ∉ ms.map f →
      fill_fold f ms g0 c = g0 c := by
  intro ms
  induction ms with
  | nil => intro g0 _; rfl
  | cons m ms ih =>
    intro g0 hc
    simp only [List.map_cons, List.mem_cons, not_or] at hc
    rw [fill_fold_cons, ih _ hc.2, Function.update_noteq hc.1]

lemma fill_fold_isSome_gen (f : M → κ) (c : κ) :
    ∀ (ms : List M) (g0 : κ → Option M),
      ((fill_fold f ms g0 c).isSome = true ↔
        c ∈ ms.map f ∨ (g0 c).isSome = true) := by
  intro ms
  induction ms with
  | nil => intro g0; simp [fill_fold_nil]
  | cons m ms ih =>
    intro g0
    rw [fill_fold_cons, ih]
    by_cases hc : c = f m
    · subst hc
      simp [Function.update_same]
    · rw [Function.update_noteq hc]
      simp only [List.map_cons, List.mem_cons]
      tauto

/-- A cell of the filled grid is occupied exactly when it is some motif's
target. -/
lemma fill_fold_isSome (f : M → κ) (ms : List M) (c : κ) :
    (fill_fold f ms (fun _ => none) c).isSome = true ↔ c ∈ ms.map f := by
  rw [fill_fold_isSome_gen]
  simp

lemma fill_fold_eq_some_gen (f : M → κ) (c : κ) (m : M) :
    ∀ (ms : List M) (g0 : κ → Option M), fill_fold f ms g0 c = some m →
      (m ∈ ms ∧ f m = c) ∨ g0 c = some m := by
  intro ms
  induction ms with
  | nil =>
    intro g0 h
    exact Or.inr h
  | cons m' ms ih =>
    intro g0 h
    rw [fill_fold_cons] at h
    rcases ih _ h with hh | hh
    · exact Or.inl ⟨List.mem_cons_of_mem m' hh.1, hh.2⟩
    · by_cases hc : c = f m'
      · subst hc
        rw [Function.update_same] at hh
        have hm2 : m' = m := Option.some_injective M hh
        rw [← hm2]
        exact Or.inl ⟨List.mem_cons_self m' ms, rfl⟩
      · rw [Function.update_noteq hc] at hh
        exact Or.inr hh

/-- What an occupied cell holds: a motif of the list whose target is that
cell. -/
lemma fill_fold_eq_some (f : M → κ) (ms : List M) (c : κ) (m : M)
    (h : fill_fold f ms (fun _ => none) c = some m) : m ∈ ms ∧ f m = c := by
  rcases fill_fold_eq_some_gen f c m ms (fun _ => none) h with hh | hh
  · exact hh
  · exact absurd hh (by simp)

/-- When no two motifs share a target, each motif ends up stored at its own
cell. -/
lemma fill_fold_at_target (f : M → κ) (m : M) :
    ∀ (ms : List M) (g0 : κ → Option M), (ms.map f).Nodup → m ∈ ms →
      fill_fold f ms g0 (f m) = some m := by
  intro ms
  induction ms with
  | nil =>
    intro g0 _ hm
    cases hm
  | cons m' ms ih =>
    intro g0 hnd hm
    simp only [List.map_cons, List.nodup_cons] at hnd
    rcases List.mem_cons.mp hm with rfl | hm'
    · rw [fill_fold_cons, fill_fold_not_target _ _ _ _ hnd.1,
        Function.update_same]
    · rw [fill_fold_cons]
      exact ih _ hnd.2 hm'

end FillFold

section ListHelpers

variable {β γ : Type}

lemma filterMap_sublist_map (h : β → Option γ) (g : β → γ) (l : List β)
    (hg : ∀ b e, h b = some e → e = g b) : (l.filterMap h).Sublist (l.map g) := by
  induction l with
  | nil => simp
  | cons b l ih =>
    rw [List.filterMap_cons, List.map_cons]
    cases hb : h b with
    | none => exact ih.cons (g b)
    | some e =>
      rw [hg b e hb]
      exact ih.cons₂ (g b)

lemma flatMap_sublist (l : List β) (f g : β → List γ)
    (h : ∀ b ∈ l, (f b).Sublist (g b)) :
    (l.flatMap f).Sublist (l.flatMap g) := by
  induction l with
  | nil => simp
  | cons b l ih =>
    rw [List.flatMap_cons, List.flatMap_cons]
    exact (h b (List.mem_cons_self b l)).append
      (ih fun b hb => h b (List.mem_cons_of_mem _ hb))

/-- Row-major enumeration of the coordinates of an `R × C` grid has no
repeats. -/
lemma nodup_range_pairs (R C : ℕ) :
    (((List.range R).flatMap fun i =>
      (List.range C).map fun j => ((i, j) : ℕ × ℕ))).Nodup := by
  rw [List.nodup_flatMap]
  constructor
  · intro i _
    exact (List.nodup_range C).map fun a b he => by
      simpa using congrArg Prod.snd he
  · refine (List.pairwise_lt_range R).imp ?_
    intro a b hab x hxa hxb
    simp only [List.mem_map, List.mem_range] at hxa hxb
    obtain ⟨ja, -, rfl⟩ := hxa
    obtain ⟨jb, -, he⟩ := hxb
    exact absurd (congrArg Prod.fst he) (by simpa using hab.ne')

/-- Row-major enumeration of the coordinates of a `P × P × P` cube has no
repeats. -/
lemma nodup_range_triples (P : ℕ) :
    (((List.range P).flatMap fun i =>
      (List.range P).flatMap fun j =>
        (List.range P).map fun k => ((i, j, k) : ℕ × ℕ × ℕ))).Nodup := by
  rw [List.nodup_flatMap]
  constructor
  · intro i _
    rw [List.nodup_flatMap]
    constructor
    · intro j _
      exact (List.nodup_range P).map fun a b he => by
        simpa using congrArg (fun t : ℕ × ℕ × ℕ => t.2.2) he
    · refine (List.pairwise_lt_range P).imp ?_
      intro a b hab x hxa hxb
      simp only [List.mem_map, List.mem_range] at hxa hxb
      obtain ⟨ka, -, rfl⟩ := hxa
      obtain ⟨kb, -, he⟩ := hxb
      exact absurd (congrArg (fun t : ℕ × ℕ × ℕ => t.2.1) he) (by simpa using hab.ne')
  · refine (List.pairwise_lt_range P).imp ?_
    intro a b hab x hxa hxb
    simp only [List.mem_flatMap, List.mem_map, List.mem_range] at hxa hxb
    obtain ⟨ja, -, ka, -, rfl⟩ := hxa
    obtain ⟨jb, -, kb, -, he⟩ := hxb
    exact absurd (congrArg Prod.fst he) (by simpa using hab.ne')

lemma getD_inj_of_nodup (l : List ℕ) (hnd : l.Nodup) {i j : ℕ}
    (hi : i < l.length) (hj : j < l.length) (h : l.getD i 0 = l.getD j 0) :
    i = j := by
  rw [List.getD_eq_getElem _ _ hi, List.getD_eq_getElem _ _ hj] at h
  exact (List.Nodup.getElem_inj_iff hnd).mp h

/-- Two lists of equal deduplicated content have filters of equal length:
the length of `filterMap` equals the number of entries it keeps. -/
lemma length_filterMap_eq_length_filter (h : β → Option γ) (l : List β) :
    (l.filterMap h).length = (l.filter fun b => (h b).isSome).length := by
  induction l with
  | nil => rfl
  | cons b l ih =>
    rw [List.filterMap_cons, List.filter_cons]
    cases hb : h b with
    | none => simpa [hb] using ih
    | some e => simpa [hb] using ih

/-- Deduplication commutes with an injective-on-members map, so mapping does not
change the number of distinct entries. -/
lemma dedup_length_map_of_inj [DecidableEq β] [DecidableEq γ] (f : β → γ) :
    ∀ (l : List β), (∀ x ∈ l, ∀ y ∈ l, f x = f y → x = y) →
      (l.map f).dedup.length = l.dedup.length := by
  intro l
  induction l with
  | nil => intro _; rfl
  | cons b l ih =>
    intro hinj
    have hmem : f b ∈ l.map f ↔ b ∈ l := by
      constructor
      · intro hb
        obtain ⟨x, hx, he⟩ := List.mem_map.mp hb
        rw [← hinj x (List.mem_cons_of_mem b hx) b (List.mem_cons_self b l) he]
        exact hx
      · exact List.mem_map_of_mem f
    have htail := ih fun x hx y hy =>
      hinj x (List.mem_cons_of_mem b hx) y (List.mem_cons_of_mem b hy)
    rw [List.map_cons]
    by_cases hb : b ∈ l
    · rw [List.dedup_cons_of_mem hb, List.dedup_cons_of_mem (hmem.mpr hb)]
      exact htail
    · rw [List.dedup_cons_of_not_mem hb,
        List.dedup_cons_of_not_mem (fun hc => hb (hmem.mp hc)),
        List.length_cons, List.length_cons, htail]

end ListHelpers

/-! ### mutation_analysis.py : get_resized_array_coordinates2 -/

section Grid2

variable {α : Type} [DecidableEq α]

/-- Embeds `indices = list(map(positions.index, motif)); indices.reverse()`. -/
def motif_indices (positions motif : List α) : List ℕ :=
  (motif.map fun x => positions.indexOf x).reverse

/-- The cell a pair is stored at: `a[indices[0]][indices[1]] = motif`. -/
def tgt2 (positions motif : List α) : ℕ × ℕ :=
  ((motif_indices positions motif).getD 0 0,
   (motif_indices positions motif).getD 1 0)

/-- The filled `num_pos × num_pos` grid (`a = numpy.zeros((num_pos,
num_pos), object)` plus the fill loop); empty cells are `none`. -/
def fill_grid2 (positions : List α) (motifs : List (List α)) :
    ℕ × ℕ → Option (List α) :=
  fill_fold (tgt2 positions) motifs (fun _ => none)

/-- Embeds `new = a[(a != 0).any(axis=1)]`: the indices of the rows that survive
the row compaction, in order. -/
def kept_rows (positions : List α) (motifs : List (List α)) : List ℕ :=
  (List.range positions.length).filter fun r =>
    (List.range positions.length).any fun c =>
      (fill_grid2 positions motifs (r, c)).isSome

/-- Embeds `new = new[:, (new != 0).any(axis=0)]`: the indices of the columns that
survive the column compaction, judged on the already row-compacted array. -/
def kept_cols (positions : List α) (motifs : List (List α)) : List ℕ :=
  (List.range positions.length).filter fun c =>
    (kept_rows positions motifs).any fun r =>
      (fill_grid2 positions motifs (r, c)).isSome

/-- The compacted array: entry `(i, j)` is the original grid read at the
`i`-th kept row and `j`-th kept column. -/
def resized_grid2 (positions : List α) (motifs : List (List α)) :
    ℕ × ℕ → Option (List α) :=
  fun rc =>
    fill_grid2 positions motifs
      ((kept_rows positions motifs).getD rc.1 0,
       (kept_cols positions motifs).getD rc.2 0)

/-- Embeds `get_resized_array_coordinates2(positions, motifs)`: the combination →
coordinate dictionary, built by scanning the compacted array in row-major
order and recording each non-empty cell. -/
def get_resized_array_coordinates2 (positions : List α)
    (motifs : List (List α)) : List (List α × (ℕ × ℕ)) :=
  (List.range (kept_rows positions motifs).length).flatMap fun i =>
    (List.range (kept_cols positions motifs).length).filterMap fun j =>
      (resized_grid2 positions motifs (i, j)).map fun m => (m, (i, j))

lemma mem_kept_rows (positions : List α) (motifs : List (List α)) (r : ℕ) :
    r ∈ kept_rows positions motifs ↔
      r < positions.length ∧ ∃ c, c < positions.length ∧
        (fill_grid2 positions motifs (r, c)).isSome = true := by
  simp [kept_rows, List.mem_filter, List.any_eq_true]

lemma mem_kept_cols (positions : List α) (motifs : List (List α)) (c : ℕ) :
    c ∈ kept_cols positions motifs ↔
      c < positions.length ∧ ∃ r, r ∈ kept_rows positions motifs ∧
        (fill_grid2 positions motifs (r, c)).isSome = true := by
  simp [kept_cols, List.mem_filter, List.any_eq_true]

lemma kept_rows_nodup (positions : List α) (motifs : List (List α)) :
    (kept_rows positions motifs).Nodup :=
  (List.nodup_range _).filter _

lemma kept_cols_nodup (positions : List α) (motifs : List (List α)) :
    (kept_cols positions motifs).Nodup :=
  (List.nodup_range _).filter _

/-- Membership in the coordinate mapping characterised by the compacted
array: an entry records exactly an in-range occupied cell and its content. -/
lemma mem_resized_coords2 (positions : List α) (motifs : List (List α))
    (m : List α) (i j : ℕ) :
    (m, (i, j)) ∈ get_resized_array_coordinates2 positions motifs ↔
      i < (kept_rows positions motifs).length ∧
      j < (kept_cols positions motifs).length ∧
      resized_grid2 positions motifs (i, j) = some m := by
  simp only [get_resized_array_coordinates2, List.mem_flatMap,
    List.mem_filterMap, List.mem_range, Option.map_eq_some']
  constructor
  · rintro ⟨i', hi', j', hj', m', hm', he⟩
    obtain ⟨rfl, rfl, rfl⟩ : m' = m ∧ i' = i ∧ j' = j := by
      have h1 := congrArg Prod.fst he
      have h2 := congrArg (fun p : List α × ℕ × ℕ => p.2.1) he
      have h3 := congrArg (fun p : List α × ℕ × ℕ => p.2.2) he
      exact ⟨h1, h2, h3⟩
    exact ⟨hi', hj', hm'⟩
  · rintro ⟨hi, hj, hm⟩
    exact ⟨i, hi, j, hj, m, hm, rfl⟩

/-- The coordinates recorded by the mapping never repeat. -/
lemma snd_nodup_resized_coords2 (positions : List α) (motifs : List (List α)) :
    ((get_resized_array_coordinates2 positions motifs).map Prod.snd).Nodup := by
  unfold get_resized_array_coordinates2
  rw [List.map_flatMap]
  apply List.Sublist.nodup ?hsub
    (nodup_range_pairs (kept_rows positions motifs).length
      (kept_cols positions motifs).length)
  apply flatMap_sublist
  intro i _
  rw [List.map_filterMap]
  apply filterMap_sublist_map
  intro j e he
  simp only [Option.map_map, Option.map_eq_some'] at he
  obtain ⟨m, -, he⟩ := he
  exact he.symm

/-- No row of the compacted array is entirely empty. -/
lemma no_empty_row2 (positions : List α) (motifs : List (List α)) (i : ℕ)
    (hi : i < (kept_rows positions motifs).length) :
    ∃ j, j < (kept_cols positions motifs).length ∧
      (resized_grid2 positions motifs (i, j)).isSome = true := by
  have hmem : (kept_rows positions motifs)[i] ∈ kept_rows positions motifs :=
    List.getElem_mem hi
  obtain ⟨-, c, hcP, hocc⟩ := (mem_kept_rows positions motifs _).mp hmem
  have hc : c ∈ kept_cols positions motifs :=
    (mem_kept_cols positions motifs c).mpr
      ⟨hcP, (kept_rows positions motifs)[i], hmem, hocc⟩
  obtain ⟨j, hj, hcj⟩ := List.mem_iff_getElem.mp hc
  refine ⟨j, hj, ?_⟩
  unfold resized_grid2
  rw [List.getD_eq_getElem _ _ hi, List.getD_eq_getElem _ _ hj, hcj]
  exact hocc

/-- No column of the compacted array is entirely empty. -/
lemma no_empty_col2 (positions : List α) (motifs : List (List α)) (j : ℕ)
    (hj : j < (kept_cols positions motifs).length) :
    ∃ i, i < (kept_rows positions motifs).length ∧
      (resized_grid2 positions motifs (i, j)).isSome = true := by
  have hmem : (kept_cols positions motifs)[j] ∈ kept_cols positions motifs :=
    List.getElem_mem hj
  obtain ⟨-, r, hr, hocc⟩ := (mem_kept_cols positions motifs _).mp hmem
  obtain ⟨i, hi, hri⟩ := List.mem_iff_getElem.mp hr
  refine ⟨i, hi, ?_⟩
  unfold resized_grid2
  rw [List.getD_eq_getElem _ _ hi, List.getD_eq_getElem _ _ hj, hri]
  exact hocc

lemma tgt2_pair (positions : List α) (x y : α) :
    tgt2 positions [x, y] = (positions.indexOf y, positions.indexOf x) := rfl

lemma tgt2_lt (positions : List α) (m : List α)
    (hm : m ∈ combinations 2 positions) :
    (tgt2 positions m).1 < positions.length ∧
    (tgt2 positions m).2 < positions.length := by
  obtain ⟨x, y, rfl⟩ := List.length_eq_two.mp (mem_combinations.mp hm).2
  have hx : x ∈ positions := mem_combinations_subset hm x (by simp)
  have hy : y ∈ positions := mem_combinations_subset hm y (by simp)
  rw [tgt2_pair]
  exact ⟨List.indexOf_lt_length.mpr hy, List.indexOf_lt_length.mpr hx⟩

lemma tgt2_inj_on (positions : List α) (m : List α)
    (hm : m ∈ combinations 2 positions) (m' : List α)
    (hm' : m' ∈ combinations 2 positions)
    (he : tgt2 positions m = tgt2 positions m') : m = m' := by
  obtain ⟨x, y, rfl⟩ := List.length_eq_two.mp (mem_combinations.mp hm).2
  obtain ⟨x', y', rfl⟩ := List.length_eq_two.mp (mem_combinations.mp hm').2
  rw [tgt2_pair, tgt2_pair] at he
  have h1 : positions.indexOf y = positions.indexOf y' := congrArg Prod.fst he
  have h2 : positions.indexOf x = positions.indexOf x' := congrArg Prod.snd he
  have hx : x ∈ positions := mem_combinations_subset hm x (by simp)
  have hy : y ∈ positions := mem_combinations_subset hm y (by simp)
  have hx' : x' ∈ positions := mem_combinations_subset hm' x' (by simp)
  have hy' : y' ∈ positions := mem_combinations_subset hm' y' (by simp)
  rw [(List.indexOf_inj hy hy').mp h1, (List.indexOf_inj hx hx').mp h2]

lemma tgt2_map_nodup (positions : List α) (hnd : positions.Nodup) :
    ((combinations 2 positions).map (tgt2 positions)).Nodup :=
  List.Nodup.map_on (tgt2_inj_on positions) (combinations_nodup hnd)

/-- The keys recorded by the mapping never repeat: a stored combination
determines the original cell it occupies, hence its compacted cell. -/
lemma fst_nodup_resized_coords2 (positions : List α) (motifs : List (List α)) :
    ((get_resized_array_coordinates2 positions motifs).map Prod.fst).Nodup := by
  apply List.Nodup.map_on ?_
    (List.Nodup.of_map Prod.snd (snd_nodup_resized_coords2 positions motifs))
  rintro ⟨m1, i1, j1⟩ h1 ⟨m2, i2, j2⟩ h2 he
  obtain rfl : m1 = m2 := he
  obtain ⟨hi1, hj1, hr1⟩ := (mem_resized_coords2 positions motifs m1 i1 j1).mp h1
  obtain ⟨hi2, hj2, hr2⟩ := (mem_resized_coords2 positions motifs m1 i2 j2).mp h2
  have ht1 := (fill_fold_eq_some _ _ _ _ hr1).2
  have ht2 := (fill_fold_eq_some _ _ _ _ hr2).2
  have hcell := ht1.symm.trans ht2
  have hrow : (kept_rows positions motifs).getD i1 0 =
      (kept_rows positions motifs).getD i2 0 := congrArg Prod.fst hcell
  have hcol : (kept_cols positions motifs).getD j1 0 =
      (kept_cols positions motifs).getD j2 0 := congrArg Prod.snd hcell
  rw [getD_inj_of_nodup _ (kept_rows_nodup positions motifs) hi1 hi2 hrow,
    getD_inj_of_nodup _ (kept_cols_nodup positions motifs) hj1 hj2 hcol]

/-- Each of the input combinations appears as a key of the mapping, and
nothing else does. -/
lemma fst_mem_resized_coords2 (positions : List α) (hnd : positions.Nodup)
    (m : List α) :
    m ∈ (get_resized_array_coordinates2 positions
        (combinations 2 positions)).map Prod.fst ↔
      m ∈ combinations 2 positions := by
  constructor
  · intro hm
    obtain ⟨e, he, rfl⟩ := List.mem_map.mp hm
    obtain ⟨m', i, j⟩ := e
    obtain ⟨-, -, hr⟩ :=
      (mem_resized_coords2 positions (combinations 2 positions) m' i j).mp he
    exact (fill_fold_eq_some _ _ _ _ hr).1
  · intro hm
    have hocc : fill_grid2 positions (combinations 2 positions)
        (tgt2 positions m) = some m :=
      fill_fold_at_target (tgt2 positions) m (combinations 2 positions) _
        (tgt2_map_nodup positions hnd) hm
    obtain ⟨hr, hc⟩ := tgt2_lt positions m hm
    have hcell : ((tgt2 positions m).1, (tgt2 positions m).2) =
        tgt2 positions m := rfl
    have hrmem : (tgt2 positions m).1 ∈
        kept_rows positions (combinations 2 positions) :=
      (mem_kept_rows _ _ _).mpr
        ⟨hr, (tgt2 positions m).2, hc, by rw [hcell, hocc]; rfl⟩
    have hcmem : (tgt2 positions m).2 ∈
        kept_cols positions (combinations 2 positions) :=
      (mem_kept_cols _ _ _).mpr
        ⟨hc, (tgt2 positions m).1, hrmem, by rw [hcell, hocc]; rfl⟩
    obtain ⟨i, hi, hri⟩ := List.mem_iff_getElem.mp hrmem
    obtain ⟨j, hj, hcj⟩ := List.mem_iff_getElem.mp hcmem
    apply List.mem_map.mpr
    refine ⟨(m, (i, j)), ?_, rfl⟩
    apply (mem_resized_coords2 _ _ m i j).mpr
    refine ⟨hi, hj, ?_⟩
    unfold resized_grid2
    rw [List.getD_eq_getElem _ _ hi, List.getD_eq_getElem _ _ hj, hri, hcj,
      hcell, hocc]

/-- Claim C2: on any duplicate-free position list and the list of all its
size-2 combinations, `get_resized_array_coordinates2` returns a mapping
whose keys are exactly the pairs (each once), whose coordinates never
repeat and are exactly the occupied in-range cells of the two-pass
compacted grid, and whose compacted grid has no entirely-empty row and no
entirely-empty column. -/
theorem c2_resized_coordinates2 (positions : List α) (hnd : positions.Nodup) :
    ((get_resized_array_coordinates2 positions
        (combinations 2 positions)).map Prod.fst).Perm
      (combinations 2 positions) ∧
    ((get_resized_array_coordinates2 positions
        (combinations 2 positions)).map Prod.snd).Nodup ∧
    (∀ m i j,
      (m, (i, j)) ∈ get_resized_array_coordinates2 positions
          (combinations 2 positions) ↔
        i < (kept_rows positions (combinations 2 positions)).length ∧
        j < (kept_cols positions (combinations 2 positions)).length ∧
        resized_grid2 positions (combinations 2 positions) (i, j) = some m) ∧
    (∀ i, i < (kept_rows positions (combinations 2 positions)).length →
      ∃ j, j < (kept_cols positions (combinations 2 positions)).length ∧
        (resized_grid2 positions (combinations 2 positions) (i, j)).isSome
          = true) ∧
    (∀ j, j < (kept_cols positions (combinations 2 positions)).length →
      ∃ i, i < (kept_rows positions (combinations 2 positions)).length ∧
        (resized_grid2 positions (combinations 2 positions) (i, j)).isSome
          = true) := by
  refine ⟨?_, snd_nodup_resized_coords2 positions _,
    mem_resized_coords2 positions _, no_empty_row2 positions _,
    no_empty_col2 positions _⟩
  exact (List.perm_ext_iff_of_nodup (fst_nodup_resized_coords2 positions _)
    (combinations_nodup hnd)).mpr (fst_mem_resized_coords2 positions hnd)

/-- Witness for C2 at the concrete position list `[0, 1, 2, 3]` (four
positions, six pairs). -/
theorem c2_witness :
    ((get_resized_array_coordinates2 [0, 1, 2, 3]
        (combinations 2 [0, 1, 2, 3])).map Prod.fst).Perm
      (combinations 2 [0, 1, 2, 3]) ∧
    ((get_resized_array_coordinates2 [0, 1, 2, 3]
        (combinations 2 [0, 1, 2, 3])).map Prod.snd).Nodup ∧
    (∀ m i j,
      (m, (i, j)) ∈ get_resized_array_coordinates2 [0, 1, 2, 3]
          (combinations 2 [0, 1, 2, 3]) ↔
        i < (kept_rows [0, 1, 2, 3] (combinations 2 [0, 1, 2, 3])).length ∧
        j < (kept_cols [0, 1, 2, 3] (combinations 2 [0, 1, 2, 3])).length ∧
        resized_grid2 [0, 1, 2, 3] (combinations 2 [0, 1, 2, 3]) (i, j)
          = some m) ∧
    (∀ i, i < (kept_rows [0, 1, 2, 3] (combinations 2 [0, 1, 2, 3])).length →
      ∃ j, j < (kept_cols [0, 1, 2, 3]
          (combinations 2 [0, 1, 2, 3])).length ∧
        (resized_grid2 [0, 1, 2, 3] (combinations 2 [0, 1, 2, 3])
          (i, j)).isSome = true) ∧
    (∀ j, j < (kept_cols [0, 1, 2, 3] (combinations 2 [0, 1, 2, 3])).length →
      ∃ i, i < (kept_rows [0, 1, 2, 3]
          (combinations 2 [0, 1, 2, 3])).length ∧
        (resized_grid2 [0, 1, 2, 3] (combinations 2 [0, 1, 2, 3])
          (i, j)).isSome = true) :=
  c2_resized_coordinates2 [0, 1, 2, 3] (by decide)

end Grid2

section FillFoldDecide

variable {κ M : Type} [DecidableEq κ]

/-- The occupied cells of a filled grid, read off a duplicate-free cell
enumeration covering all targets, number exactly the distinct targets. -/
lemma length_filter_isSome_eq_dedup (f : M → κ) (ms : List M) (cells : List κ)
    (hnd : cells.Nodup) (hsub : ∀ m ∈ ms, f m ∈ cells) :
    (cells.filter fun c => (fill_fold f ms (fun _ => none) c).isSome).length
      = (ms.map f).dedup.length := by
  have hperm : (cells.filter fun c =>
      (fill_fold f ms (fun _ => none) c).isSome).Perm (ms.map f).dedup := by
    rw [List.perm_ext_iff_of_nodup (hnd.filter _) (List.nodup_dedup _)]
    intro x
    rw [List.mem_filter, List.mem_dedup]
    constructor
    · rintro ⟨-, hx⟩
      exact (fill_fold_isSome f ms x).mp hx
    · intro hx
      refine ⟨?_, (fill_fold_isSome f ms x).mpr hx⟩
      obtain ⟨m, hm, rfl⟩ := List.mem_map.mp hx
      exact hsub m hm
  exact hperm.length_eq

end FillFoldDecide

/-! ### mutation_analysis.py : get_resized_array_coordinates3 -/

section Grid3

variable {α : Type} [LinearOrder α]

/-- The cell a triple is stored at:
`a[indices[0]][indices[1]][indices[2]] = triple` with the reversed index
list. -/
def tgt3 (positions motif : List α) : ℕ × ℕ × ℕ :=
  ((motif_indices positions motif).getD 0 0,
   (motif_indices positions motif).getD 1 0,
   (motif_indices positions motif).getD 2 0)

/-- The filled `num_pos × num_pos × num_pos` cube. -/
def fill_grid3 (positions : List α) (motifs : List (List α)) :
    ℕ × ℕ × ℕ → Option (List α) :=
  fill_fold (tgt3 positions) motifs (fun _ => none)

/-- Row-major enumeration of the cube's coordinates, the order
`numpy.flatten` reads them in. -/
def cube_cells (P : ℕ) : List (ℕ × ℕ × ℕ) :=
  (List.range P).flatMap fun i =>
    (List.range P).flatMap fun j =>
      (List.range P).map fun k => (i, j, k)

/-- Embeds `new = a.flatten()`. -/
def flat_grid3 (positions : List α) (motifs : List (List α)) :
    List (Option (List α)) :=
  (cube_cells positions.length).map (fill_grid3 positions motifs)

/-- Embeds `new = new[new != 0]`: the non-empty entries, in flatten order. -/
def extracted3 (positions : List α) (motifs : List (List α)) : List (List α) :=
  (flat_grid3 positions motifs).filterMap id

/-- Python tuple comparison (lexicographic, used by `new.sort()` on an
object array of tuples). -/
def tuple_le : List α → List α → Bool
  | [], _ => true
  | _ :: _, [] => false
  | x :: xs, y :: ys => if x < y then true else if y < x then false else tuple_le xs ys

/-- Embeds `new.sort()`: sort the extracted combinations by combination identity. -/
def sorted3 (positions : List α) (motifs : List (List α)) : List (List α) :=
  (extracted3 positions motifs).insertionSort fun a b => tuple_le a b = true

/-- Embeds `get_resized_array_coordinates3(positions, position_set)`: flatten the
cube, drop the empty entries, sort, reshape to `2 × 2` (a different entry
count makes `reshape` raise `ValueError`, modelled as `none`), and read the
combination → coordinate dictionary off the `2 × 2` grid. -/
def get_resized_array_coordinates3 (positions : List α)
    (position_set : List (List α)) : Option (List (List α × (ℕ × ℕ))) :=
  match sorted3 positions position_set with
  | [a, b, c, d] => some [(a, (0, 0)), (b, (0, 1)), (c, (1, 0)), (d, (1, 1))]
  | _ => none

lemma mem_cube_cells (P : ℕ) (c : ℕ × ℕ × ℕ) :
    c ∈ cube_cells P ↔ c.1 < P ∧ c.2.1 < P ∧ c.2.2 < P := by
  obtain ⟨i, j, k⟩ := c
  simp only [cube_cells, List.mem_flatMap, List.mem_map, List.mem_range]
  constructor
  · rintro ⟨a, ha, b, hb, ⟨c2, hc2, h1⟩⟩
    obtain ⟨rfl, rfl, rfl⟩ : a = i ∧ b = j ∧ c2 = k := by
      refine ⟨congrArg Prod.fst h1, ?_, ?_⟩
      · exact congrArg (fun t : ℕ × ℕ × ℕ => t.2.1) h1
      · exact congrArg (fun t : ℕ × ℕ × ℕ => t.2.2) h1
    exact ⟨ha, hb, hc2⟩
  · rintro ⟨ha, hb, hc⟩
    exact ⟨i, ha, j, hb, k, hc, rfl⟩

lemma cube_cells_nodup (P : ℕ) : (cube_cells P).Nodup := nodup_range_triples P

lemma tgt3_triple (positions : List α) (x y z : α) :
    tgt3 positions [x, y, z] =
      (positions.indexOf z, positions.indexOf y, positions.indexOf x) := rfl

lemma tgt3_lt (positions : List α) (m : List α)
    (hm : m ∈ combinations 3 positions) :
    (tgt3 positions m).1 < positions.length ∧
    (tgt3 positions m).2.1 < positions.length ∧
    (tgt3 positions m).2.2 < positions.length := by
  obtain ⟨x, y, z, rfl⟩ := List.length_eq_three.mp (mem_combinations.mp hm).2
  have hx : x ∈ positions := mem_combinations_subset hm x (by simp)
  have hy : y ∈ positions := mem_combinations_subset hm y (by simp)
  have hz : z ∈ positions := mem_combinations_subset hm z (by simp)
  rw [tgt3_triple]
  exact ⟨List.indexOf_lt_length.mpr hz, List.indexOf_lt_length.mpr hy,
    List.indexOf_lt_length.mpr hx⟩

lemma tgt3_inj_on (positions : List α) (m : List α)
    (hm : m ∈ combinations 3 positions) (m' : List α)
    (hm' : m' ∈ combinations 3 positions)
    (he : tgt3 positions m = tgt3 positions m') : m = m' := by
  obtain ⟨x, y, z, rfl⟩ := List.length_eq_three.mp (mem_combinations.mp hm).2
  obtain ⟨x', y', z', rfl⟩ := List.length_eq_three.mp (mem_combinations.mp hm').2
  rw [tgt3_triple, tgt3_triple] at he
  have h1 : positions.indexOf z = positions.indexOf z' := congrArg Prod.fst he
  have h2 : positions.indexOf y = positions.indexOf y' :=
    congrArg (fun t : ℕ × ℕ × ℕ => t.2.1) he
  have h3 : positions.indexOf x = positions.indexOf x' :=
    congrArg (fun t : ℕ × ℕ × ℕ => t.2.2) he
  have hx : x ∈ positions := mem_combinations_subset hm x (by simp)
  have hy : y ∈ positions := mem_combinations_subset hm y (by simp)
  have hz : z ∈ positions := mem_combinations_subset hm z (by simp)
  have hx' : x' ∈ positions := mem_combinations_subset hm' x' (by simp)
  have hy' : y' ∈ positions := mem_combinations_subset hm' y' (by simp)
  have hz' : z' ∈ positions := mem_combinations_subset hm' z' (by simp)
  rw [(List.indexOf_inj hx hx').mp h3, (List.indexOf_inj hy hy').mp h2,
    (List.indexOf_inj hz hz').mp h1]

lemma tgt3_map_nodup (positions : List α) (hnd : positions.Nodup) :
    ((combinations 3 positions).map (tgt3 positions)).Nodup :=
  List.Nodup.map_on (tgt3_inj_on positions) (combinations_nodup hnd)

lemma extracted3_eq_filterMap (positions : List α) (motifs : List (List α)) :
    extracted3 positions motifs =
      (cube_cells positions.length).filterMap (fill_grid3 positions motifs) := by
  unfold extracted3 flat_grid3
  rw [List.filterMap_map]
  rfl

/-- The extracted entries count one cell per distinct stored triple. -/
lemma extracted3_length (positions : List α) (motifs : List (List α))
    (hsub : ∀ m ∈ motifs, m ∈ combinations 3 positions) :
    (extracted3 positions motifs).length = motifs.dedup.length := by
  rw [extracted3_eq_filterMap, length_filterMap_eq_length_filter]
  unfold fill_grid3
  rw [length_filter_isSome_eq_dedup (tgt3 positions) motifs
    (cube_cells positions.length) (cube_cells_nodup _) ?hsubT]
  case hsubT =>
    intro m hm
    obtain ⟨h1, h2, h3⟩ := tgt3_lt positions m (hsub m hm)
    exact (mem_cube_cells _ _).mpr ⟨h1, h2, h3⟩
  exact dedup_length_map_of_inj _ motifs fun x hx y hy =>
    tgt3_inj_on positions x (hsub x hx) y (hsub y hy)

/-- Claim C9: a triple-combination list with a number of distinct triples
other than 4 makes `get_resized_array_coordinates3` fail (the `reshape` to
`2 × 2` is impossible) rather than return a mapping. -/
theorem c9_resized3_requires_four (positions : List α)
    (position_set : List (List α))
    (hsub : ∀ m ∈ position_set, m ∈ combinations 3 positions)
    (hcount : position_set.dedup.length ≠ 4) :
    get_resized_array_coordinates3 positions position_set = none := by
  have hlen : (sorted3 positions position_set).length =
      position_set.dedup.length := by
    unfold sorted3
    rw [(List.perm_insertionSort _ _).length_eq]
    exact extracted3_length positions position_set hsub
  unfold get_resized_array_coordinates3
  rcases hs : sorted3 positions position_set with - | ⟨a, - | ⟨b, - | ⟨c, - | ⟨d, - | t⟩⟩⟩⟩ <;>
    rw [hs] at hlen <;>
    simp at hlen ⊢ <;>
    omega

/-- Witness for C9: four positions but only one distinct triple supplied —
the function returns no mapping. -/
theorem c9_witness :
    get_resized_array_coordinates3 [0, 1, 2, 3] [[0, 1, 2]] = none :=
  c9_resized3_requires_four [0, 1, 2, 3] [[0, 1, 2]] (by decide) (by decide)

lemma extracted3_nodup (positions : List α) (motifs : List (List α)) :
    (extracted3 positions motifs).Nodup := by
  rw [extracted3_eq_filterMap]
  apply List.Nodup.filterMap ?_ (cube_cells_nodup _)
  intro a a' b hb hb'
  rw [Option.mem_def] at hb hb'
  rw [← (fill_fold_eq_some (tgt3 positions) motifs a b hb).2,
    ← (fill_fold_eq_some (tgt3 positions) motifs a' b hb').2]

/-- The extracted entries are exactly the input combinations, once each. -/
lemma extracted3_perm (positions : List α) (hnd : positions.Nodup) :
    (extracted3 positions (combinations 3 positions)).Perm
      (combinations 3 positions) := by
  rw [List.perm_ext_iff_of_nodup (extracted3_nodup _ _) (combinations_nodup hnd)]
  intro m
  rw [extracted3_eq_filterMap, List.mem_filterMap]
  constructor
  · rintro ⟨c, -, hc⟩
    exact (fill_fold_eq_some _ _ _ _ hc).1
  · intro hm
    refine ⟨tgt3 positions m, ?_, ?_⟩
    · obtain ⟨h1, h2, h3⟩ := tgt3_lt positions m hm
      exact (mem_cube_cells _ _).mpr ⟨h1, h2, h3⟩
    · exact fill_fold_at_target (tgt3 positions) m _ _
        (tgt3_map_nodup positions hnd) hm

/-- Claim C4: on 4 distinct positions and all 4 of their size-3
combinations, `get_resized_array_coordinates3` succeeds and returns a
bijection from the 4 triples onto `{(0,0), (0,1), (1,0), (1,1)}`. -/
theorem c4_resized_coordinates3 (positions : List α) (hnd : positions.Nodup)
    (h4 : positions.length = 4) :
    ∃ mp, get_resized_array_coordinates3 positions (combinations 3 positions)
        = some mp ∧
      (mp.map Prod.fst).Perm (combinations 3 positions) ∧
      (mp.map Prod.fst).Nodup ∧
      mp.map Prod.snd = [(0, 0), (0, 1), (1, 0), (1, 1)] := by
  have hperm : (sorted3 positions (combinations 3 positions)).Perm
      (combinations 3 positions) := by
    unfold sorted3
    exact (List.perm_insertionSort _ _).trans (extracted3_perm positions hnd)
  have hlen : (sorted3 positions (combinations 3 positions)).length = 4 := by
    rw [hperm.length_eq, combinations_length, h4]
    rfl
  rcases hs : sorted3 positions (combinations 3 positions) with
    - | ⟨a, - | ⟨b, - | ⟨c, - | ⟨d, - | ⟨e, t⟩⟩⟩⟩⟩
  · rw [hs] at hlen; simp at hlen
  · rw [hs] at hlen; simp at hlen
  · rw [hs] at hlen; simp at hlen
  · rw [hs] at hlen; simp at hlen
  · rw [hs] at hperm
    refine ⟨[(a, (0, 0)), (b, (0, 1)), (c, (1, 0)), (d, (1, 1))], ?_, ?_, ?_, rfl⟩
    · unfold get_resized_array_coordinates3
      rw [hs]
    · exact hperm
    · exact hperm.nodup_iff.mpr (combinations_nodup hnd)
  · rw [hs] at hlen; simp at hlen

/-- Witness for C4 at the concrete position list `[0, 1, 2, 3]`. -/
theorem c4_witness :
    ∃ mp, get_resized_array_coordinates3 [0, 1, 2, 3]
        (combinations 3 [0, 1, 2, 3]) = some mp ∧
      (mp.map Prod.fst).Perm (combinations 3 [0, 1, 2, 3]) ∧
      (mp.map Prod.fst).Nodup ∧
      mp.map Prod.snd = [(0, 0), (0, 1), (1, 0), (1, 1)] :=
  c4_resized_coordinates3 [0, 1, 2, 3] (by decide) rfl

end Grid3

end MutationMotif
